import Mathlib

/-!
# Verification of `clean_subtitles.py` (VTT subtitle cleaner)

This file is a shallow embedding of the Python routine `clean_vtt_subtitle`
(and the statistics computed by `main`) from
`src/skills/youtube-subtitle-summarizer/clean_subtitles.py`.

Text is modelled as `List Char`.  Python whitespace (as used by `str.strip()`
and `str.split()`) is modelled by its ASCII subset, and the regex word class
`\w` by ASCII letters, digits and underscore; none of the characters these
classes omit interact with the angle-bracket structure the theorems are about.

The two regular-expression substitutions of the source are modelled by
left-to-right scanners that mirror the leftmost, non-overlapping match
discipline of `re.sub`:
* `<[^>]+>`   — at a `<`, greedily scan to the first following `>`; the match
  succeeds exactly when at least one character stands between them;
* `</?\w+>`   — at a `<`, optionally consume `/`, then a maximal nonempty run
  of word characters, then `>` (since `\w` excludes `>`, the greedy run is
  exact and no backtracking case remains).

Both scanners and the word splitter recurse on a fuel argument equal to the
length of the input so that every definition is structurally recursive and
kernel-evaluable; the fuel is irrelevant above the length of the list, and
equation lemmas below restate the intended recursion.
-/

/-- ASCII model of Python whitespace as used by `str.strip()` / `str.split()`. -/
def isPySpace (c : Char) : Bool :=
  c = ' ' || c = '\t' || c = '\n' || c = '\r' || c = '\x0b' || c = '\x0c'

/-- ASCII model of the regex class `\w`. -/
def wordChar (c : Char) : Bool :=
  c.isAlpha || c.isDigit || c = '_'

/-- Python `vtt_content.split('\n')` — split on every newline, keeping empty pieces;
the empty string yields one empty piece. -/
def splitNl : List Char → List (List Char)
  | [] => [[]]
  | c :: rest =>
    if c = '\n' then [] :: splitNl rest
    else
      match splitNl rest with
      | [] => [[c]]
      | h :: t => (c :: h) :: t

/-- Python `line.strip()` — drop leading and trailing whitespace. -/
def pyStrip (l : List Char) : List Char :=
  ((l.dropWhile isPySpace).reverse.dropWhile isPySpace).reverse

/-- The timing-cue marker `-->`. -/
def arrow : List Char := ['-', '-', '>']

/-- Python substring containment (`pat in l`): `pat` occurs contiguously in `l`. -/
def hasSubstring (pat : List Char) : List Char → Bool
  | [] => List.isPrefixOf pat []
  | c :: rest => List.isPrefixOf pat (c :: rest) || hasSubstring pat rest

/-- The header test of the source:
`line.startswith('WEBVTT') or line.startswith('Kind:') or line.startswith('Language:')`. -/
def isHeaderLine (l : List Char) : Bool :=
  List.isPrefixOf "WEBVTT".toList l || List.isPrefixOf "Kind:".toList l ||
    List.isPrefixOf "Language:".toList l

/-- Split a list at its first `>`: `some (before, after)` with
`l = before ++ '>' :: after` and no `>` in `before`; `none` if `l` has no `>`. -/
def splitAtGt : List Char → Option (List Char × List Char)
  | [] => none
  | c :: rest =>
    if c = '>' then some ([], rest)
    else (splitAtGt rest).map (fun p => (c :: p.1, p.2))

/-- Fueled scanner for `re.sub(r'<[^>]+>', '', ·)`. -/
def stripTagsF : Nat → List Char → List Char
  | 0, l => l
  | _ + 1, [] => []
  | fuel + 1, c :: rest =>
    if c = '<' then
      match splitAtGt rest with
      | some (b, a) => if b.isEmpty then c :: stripTagsF fuel rest else stripTagsF fuel a
      | none => c :: stripTagsF fuel rest
    else c :: stripTagsF fuel rest

/-- First substitution pass of the source: remove every `<[^>]+>` match. -/
def stripTags (l : List Char) : List Char :=
  stripTagsF l.length l

/-- Match `\w+>` at the start of `l1`: a maximal nonempty run of word
characters followed by `>`; on success return the rest after the `>`. -/
def matchTagCore (l1 : List Char) : Option (List Char) :=
  match l1.drop (l1.takeWhile wordChar).length with
  | [] => none
  | d :: t => if d = '>' ∧ ¬ (l1.takeWhile wordChar).isEmpty then some t else none

/-- Try to match `/?\w+>` at the start of `l` (the part of `</?\w+>` after the
`<`); on success return the rest of the list after the match.  (When `l` starts
with `/` the no-slash alternative cannot match either, since `/` is not a word
character, so consuming the `/` is exact.) -/
def matchTag2 (l : List Char) : Option (List Char) :=
  match l with
  | [] => none
  | c :: t => if c = '/' then matchTagCore t else matchTagCore (c :: t)

/-- Fueled scanner for `re.sub(r'</?\w+>', '', ·)`. -/
def stripTags2F : Nat → List Char → List Char
  | 0, l => l
  | _ + 1, [] => []
  | fuel + 1, c :: rest =>
    if c = '<' then
      match matchTag2 rest with
      | some a => stripTags2F fuel a
      | none => c :: stripTags2F fuel rest
    else c :: stripTags2F fuel rest

/-- Second substitution pass of the source: remove every `</?\w+>` match. -/
def stripTags2 (l : List Char) : List Char :=
  stripTags2F l.length l

/-- Fueled model of `str.split()`: maximal runs of non-whitespace characters. -/
def pyWordsF : Nat → List Char → List (List Char)
  | 0, _ => []
  | _ + 1, [] => []
  | fuel + 1, c :: rest =>
    if isPySpace c then pyWordsF fuel rest
    else
      ((c :: rest).takeWhile (fun d => !isPySpace d)) ::
        pyWordsF fuel ((c :: rest).dropWhile (fun d => !isPySpace d))

/-- Python `line.split()` — whitespace-delimited words, empties discarded. -/
def pyWords (l : List Char) : List (List Char) :=
  pyWordsF l.length l

/-- Python `' '.join(line.split())` — collapse whitespace runs to single spaces and trim. -/
def normWs (l : List Char) : List Char :=
  List.intercalate [' '] (pyWords l)

/-- The whole per-line transformation of the source:
both tag-removal passes followed by whitespace collapsing. -/
def cleanLine (l : List Char) : List Char :=
  normWs (stripTags2 (stripTags l))

/-- The three skip tests of the loop body: header line, timing line
(`'-->' in line`), blank line (`not line.strip()`). -/
def skipLine (l : List Char) : Bool :=
  isHeaderLine l || hasSubstring arrow l || (pyStrip l).isEmpty

/-- The loop of `clean_vtt_subtitle` over the input lines, carrying the
`seen_lines` set (modelled as a list with membership semantics). -/
def cleanLoop : List (List Char) → List (List Char) → List (List Char)
  | [], _ => []
  | line :: rest, seen_lines =>
    if skipLine line then cleanLoop rest seen_lines
    else if cleanLine line ≠ [] ∧ cleanLine line ∉ seen_lines then
      cleanLine line :: cleanLoop rest (cleanLine line :: seen_lines)
    else cleanLoop rest seen_lines

/-- The function `clean_vtt_subtitle` — split on newlines, run the cleaning loop, join the
surviving lines with single newlines. -/
def clean_vtt_subtitle (vtt_content : List Char) : List Char :=
  List.intercalate ['\n'] (cleanLoop (splitNl vtt_content) [])

/-- Python `len(cleaned_text.split('\n'))` — the line count reported by `main`. -/
def line_count (cleaned_text : List Char) : Nat :=
  (splitNl cleaned_text).length

/-- Python `len(cleaned_text)` — the character count reported by `main`. -/
def char_count (cleaned_text : List Char) : Nat :=
  cleaned_text.length

/-- The cleaned forms, in input order, of the input lines that pass the skip
tests and clean to something nonempty — the stream the seen-set deduplicates. -/
def processedLines (lines : List (List Char)) : List (List Char) :=
  ((lines.filter (fun l => !skipLine l)).map cleanLine).filter (fun l => !l.isEmpty)

/-- Keep the first occurrence of each element not yet seen. -/
def firstDedup : List (List Char) → List (List Char) → List (List Char)
  | [], _ => []
  | x :: xs, seen => if x ∈ seen then firstDedup xs seen else x :: firstDedup xs (x :: seen)

/-- Index of the first occurrence of `x` (length of the list when absent). -/
def firstIdx (x : List Char) : List (List Char) → Nat
  | [] => 0
  | y :: t => if y = x then 0 else firstIdx x t + 1

/-! ## Equation lemmas for the fueled definitions -/

theorem splitAtGt_eq : ∀ {l b a : List Char}, splitAtGt l = some (b, a) → l = b ++ '>' :: a := by
  intro l
  induction l with
  | nil => intro b a h; simp [splitAtGt] at h
  | cons c rest ih =>
    intro b a h
    by_cases hc : c = '>'
    · subst hc
      simp [splitAtGt] at h
      obtain ⟨hb, ha⟩ := h
      subst hb; subst ha; rfl
    · simp only [splitAtGt, if_neg hc, Option.map_eq_some'] at h
      obtain ⟨⟨b', a'⟩, hp, hba⟩ := h
      obtain ⟨hb, ha⟩ := Prod.mk.injEq .. ▸ hba
      subst ha
      have := ih hp
      subst this
      simp [← hb]

theorem splitAtGt_length {l b a : List Char} (h : splitAtGt l = some (b, a)) :
    a.length < l.length := by
  have := splitAtGt_eq h
  subst this
  simp [List.length_append]
  omega

theorem splitAtGt_none : ∀ {l : List Char}, splitAtGt l = none → '>' ∉ l := by
  intro l
  induction l with
  | nil => intro _; simp
  | cons c rest ih =>
    intro h
    by_cases hc : c = '>'
    · subst hc; simp [splitAtGt] at h
    · simp only [splitAtGt, if_neg hc, Option.map_eq_none'] at h
      simp [ih h, hc]
      intro hcontra
      exact hc hcontra.symm

theorem stripTagsF_nil : ∀ fuel, stripTagsF fuel [] = []
  | 0 => rfl
  | _ + 1 => rfl

theorem stripTagsF_fuel : ∀ fuel fuel' (l : List Char), l.length ≤ fuel → l.length ≤ fuel' →
    stripTagsF fuel l = stripTagsF fuel' l := by
  intro fuel
  induction fuel with
  | zero =>
    intro fuel' l h _
    have : l = [] := List.length_eq_zero.mp (Nat.le_zero.mp h)
    subst this
    rw [stripTagsF_nil, stripTagsF_nil]
  | succ f ih =>
    intro fuel' l h h'
    cases l with
    | nil => rw [stripTagsF_nil, stripTagsF_nil]
    | cons c rest =>
      cases fuel' with
      | zero => simp at h'
      | succ f' =>
        simp only [List.length_cons, Nat.succ_le_succ_iff] at h h'
        simp only [stripTagsF]
        by_cases hc : c = '<'
        · simp only [if_pos hc]
          cases hsp : splitAtGt rest with
          | none => rw [ih f' rest h h']
          | some p =>
            obtain ⟨b, a⟩ := p
            by_cases hb : b.isEmpty
            · simp only [hb, if_true]
              rw [ih f' rest h h']
            · simp only [hb, if_false, Bool.false_eq_true]
              have hlen := splitAtGt_length hsp
              exact ih f' a (by omega) (by omega)
        · simp only [if_neg hc]
          rw [ih f' rest h h']

theorem stripTags_nil : stripTags [] = [] := rfl

theorem stripTags_cons_ne {c : Char} {rest : List Char} (h : ¬ c = '<') :
    stripTags (c :: rest) = c :: stripTags rest := by
  show stripTagsF (rest.length + 1) (c :: rest) = _
  simp only [stripTagsF, if_neg h]
  rfl

theorem stripTags_cons_none {rest : List Char} (h : splitAtGt rest = none) :
    stripTags ('<' :: rest) = '<' :: stripTags rest := by
  show stripTagsF (rest.length + 1) ('<' :: rest) = _
  simp only [stripTagsF, if_pos rfl, h]
  rfl

theorem stripTags_cons_emptyb {rest a : List Char} (h : splitAtGt rest = some ([], a)) :
    stripTags ('<' :: rest) = '<' :: stripTags rest := by
  show stripTagsF (rest.length + 1) ('<' :: rest) = _
  simp only [stripTagsF, if_pos rfl, h, List.isEmpty_nil, if_true]
  rfl

theorem stripTags_cons_match {rest b a : List Char} (h : splitAtGt rest = some (b, a))
    (hb : ¬ b = []) : stripTags ('<' :: rest) = stripTags a := by
  show stripTagsF (rest.length + 1) ('<' :: rest) = _
  have hb' : b.isEmpty = false := by
    cases b with
    | nil => exact absurd rfl hb
    | cons x xs => rfl
  simp only [stripTagsF, if_pos rfl, h, hb', Bool.false_eq_true, if_false]
  exact stripTagsF_fuel rest.length a.length a (Nat.le_of_lt (splitAtGt_length h)) (Nat.le_refl _)

theorem matchTagCore_length {l1 r : List Char} (h : matchTagCore l1 = some r) :
    r.length < l1.length := by
  unfold matchTagCore at h
  split at h
  · exact absurd h (by simp)
  · rename_i d t hdrop
    split at h
    · have hr := Option.some.inj h
      subst hr
      have hlen : (l1.drop (l1.takeWhile wordChar).length).length =
          l1.length - (l1.takeWhile wordChar).length := by simp
      rw [hdrop] at hlen
      simp only [List.length_cons] at hlen
      omega
    · exact absurd h (by simp)

theorem matchTagCore_mem {l1 r : List Char} (h : matchTagCore l1 = some r) : '>' ∈ l1 := by
  unfold matchTagCore at h
  split at h
  · exact absurd h (by simp)
  · rename_i d t hdrop
    split at h
    · rename_i hcond
      have hgt : '>' ∈ l1.drop (l1.takeWhile wordChar).length := by
        rw [hdrop, ← hcond.1]
        exact List.mem_cons_self _ _
      exact List.mem_of_mem_drop hgt
    · exact absurd h (by simp)

theorem matchTag2_length : ∀ {l r : List Char}, matchTag2 l = some r → r.length < l.length := by
  intro l r h
  cases l with
  | nil => simp [matchTag2] at h
  | cons c t =>
    by_cases hc : c = '/'
    · rw [matchTag2, if_pos hc] at h
      have := matchTagCore_length h
      simp only [List.length_cons]
      omega
    · rw [matchTag2, if_neg hc] at h
      exact matchTagCore_length h

theorem matchTag2_mem : ∀ {l r : List Char}, matchTag2 l = some r → '>' ∈ l := by
  intro l r h
  cases l with
  | nil => simp [matchTag2] at h
  | cons c t =>
    by_cases hc : c = '/'
    · rw [matchTag2, if_pos hc] at h
      exact List.mem_cons_of_mem _ (matchTagCore_mem h)
    · rw [matchTag2, if_neg hc] at h
      exact matchTagCore_mem h

theorem stripTags2F_nil : ∀ fuel, stripTags2F fuel [] = []
  | 0 => rfl
  | _ + 1 => rfl

theorem stripTags2F_fuel : ∀ fuel fuel' (l : List Char), l.length ≤ fuel → l.length ≤ fuel' →
    stripTags2F fuel l = stripTags2F fuel' l := by
  intro fuel
  induction fuel with
  | zero =>
    intro fuel' l h _
    have : l = [] := List.length_eq_zero.mp (Nat.le_zero.mp h)
    subst this
    rw [stripTags2F_nil, stripTags2F_nil]
  | succ f ih =>
    intro fuel' l h h'
    cases l with
    | nil => rw [stripTags2F_nil, stripTags2F_nil]
    | cons c rest =>
      cases fuel' with
      | zero => simp at h'
      | succ f' =>
        simp only [List.length_cons, Nat.succ_le_succ_iff] at h h'
        simp only [stripTags2F]
        by_cases hc : c = '<'
        · simp only [if_pos hc]
          cases hm : matchTag2 rest with
          | none => rw [ih f' rest h h']
          | some a =>
            have hlen := matchTag2_length hm
            exact ih f' a (by omega) (by omega)
        · simp only [if_neg hc]
          rw [ih f' rest h h']

theorem stripTags2_nil : stripTags2 [] = [] := rfl

theorem stripTags2_cons_ne {c : Char} {rest : List Char} (h : ¬ c = '<') :
    stripTags2 (c :: rest) = c :: stripTags2 rest := by
  show stripTags2F (rest.length + 1) (c :: rest) = _
  simp only [stripTags2F, if_neg h]
  rfl

theorem stripTags2_cons_none {rest : List Char} (h : matchTag2 rest = none) :
    stripTags2 ('<' :: rest) = '<' :: stripTags2 rest := by
  show stripTags2F (rest.length + 1) ('<' :: rest) = _
  simp only [stripTags2F, if_pos rfl, h]
  rfl

theorem stripTags2_cons_some {rest a : List Char} (h : matchTag2 rest = some a) :
    stripTags2 ('<' :: rest) = stripTags2 a := by
  show stripTags2F (rest.length + 1) ('<' :: rest) = _
  simp only [stripTags2F, if_pos rfl, h]
  exact stripTags2F_fuel rest.length a.length a (Nat.le_of_lt (matchTag2_length h)) (Nat.le_refl _)

theorem pyWordsF_nil : ∀ fuel, pyWordsF fuel [] = []
  | 0 => rfl
  | _ + 1 => rfl

theorem pyWordsF_fuel : ∀ fuel fuel' (l : List Char), l.length ≤ fuel → l.length ≤ fuel' →
    pyWordsF fuel l = pyWordsF fuel' l := by
  intro fuel
  induction fuel with
  | zero =>
    intro fuel' l h _
    have : l = [] := List.length_eq_zero.mp (Nat.le_zero.mp h)
    subst this
    rw [pyWordsF_nil, pyWordsF_nil]
  | succ f ih =>
    intro fuel' l h h'
    cases l with
    | nil => rw [pyWordsF_nil, pyWordsF_nil]
    | cons c rest =>
      cases fuel' with
      | zero => simp at h'
      | succ f' =>
        simp only [List.length_cons, Nat.succ_le_succ_iff] at h h'
        simp only [pyWordsF]
        by_cases hc : isPySpace c
        · simp only [if_pos hc]
          rw [ih f' rest h h']
        · simp only [if_neg hc]
          have hdw : (c :: rest).dropWhile (fun d => !isPySpace d) =
              rest.dropWhile (fun d => !isPySpace d) := by
            rw [List.dropWhile_cons]
            simp [hc]
          rw [hdw]
          have hlen : (rest.dropWhile (fun d => !isPySpace d)).length ≤ rest.length :=
            (List.dropWhile_suffix _).sublist.length_le
          rw [ih f' (rest.dropWhile (fun d => !isPySpace d)) (by omega) (by omega)]

theorem pyWords_nil : pyWords [] = [] := rfl

theorem pyWords_cons_space {c : Char} {rest : List Char} (h : isPySpace c = true) :
    pyWords (c :: rest) = pyWords rest := by
  show pyWordsF (rest.length + 1) (c :: rest) = _
  simp only [pyWordsF, if_pos h]
  rfl

theorem pyWords_cons_word {c : Char} {rest : List Char} (h : isPySpace c = false) :
    pyWords (c :: rest) =
      (c :: rest.takeWhile (fun d => !isPySpace d)) ::
        pyWords (rest.dropWhile (fun d => !isPySpace d)) := by
  show pyWordsF (rest.length + 1) (c :: rest) = _
  have hc : ¬ isPySpace c = true := by simp [h]
  simp only [pyWordsF, if_neg hc]
  have htw : (c :: rest).takeWhile (fun d => !isPySpace d) =
      c :: rest.takeWhile (fun d => !isPySpace d) := by
    rw [List.takeWhile_cons]
    simp [h]
  have hdw : (c :: rest).dropWhile (fun d => !isPySpace d) =
      rest.dropWhile (fun d => !isPySpace d) := by
    rw [List.dropWhile_cons]
    simp [h]
  rw [htw, hdw]
  have hlen : (rest.dropWhile (fun d => !isPySpace d)).length ≤ rest.length :=
    (List.dropWhile_suffix _).sublist.length_le
  rw [pyWordsF_fuel rest.length (rest.dropWhile (fun d => !isPySpace d)).length
    (rest.dropWhile (fun d => !isPySpace d)) (by omega) (Nat.le_refl _)]
  rfl

/-! ## The shape of `stripTags` output: every surviving `<` is immediately
followed by `>` or has no `>` anywhere after it -/

/-- Every occurrence of `<` in `l` is either immediately followed by `>` or has
no `>` after it at all — exactly the lists on which neither substitution
pattern can match. -/
def NoOpenTagP (l : List Char) : Prop :=
  ∀ pre suf : List Char, l = pre ++ '<' :: suf → suf.head? = some '>' ∨ '>' ∉ suf

theorem noOpenTag_nil : NoOpenTagP [] := by
  intro pre suf h
  exact absurd h (by simp)

theorem noOpenTag_tail {c : Char} {l : List Char} (h : NoOpenTagP (c :: l)) : NoOpenTagP l := by
  intro pre suf hdec
  exact h (c :: pre) suf (by simp [hdec])

theorem noOpenTag_cons_ne {c : Char} {l : List Char} (hc : ¬ c = '<') (h : NoOpenTagP l) :
    NoOpenTagP (c :: l) := by
  intro pre suf hdec
  cases pre with
  | nil =>
    simp only [List.nil_append, List.cons.injEq] at hdec
    exact absurd hdec.1 hc
  | cons p pre' =>
    simp only [List.cons_append, List.cons.injEq] at hdec
    exact h pre' suf hdec.2

theorem noOpenTag_cons_lt {l : List Char} (h : NoOpenTagP l)
    (hhead : l.head? = some '>' ∨ '>' ∉ l) : NoOpenTagP ('<' :: l) := by
  intro pre suf hdec
  cases pre with
  | nil =>
    simp only [List.nil_append, List.cons.injEq] at hdec
    rw [← hdec.2]
    exact hhead
  | cons p pre' =>
    simp only [List.cons_append, List.cons.injEq] at hdec
    exact h pre' suf hdec.2

theorem stripTags_sublist_fuel : ∀ fuel (l : List Char), l.length ≤ fuel →
    List.Sublist (stripTags l) l := by
  intro fuel
  induction fuel with
  | zero =>
    intro l h
    have : l = [] := List.length_eq_zero.mp (Nat.le_zero.mp h)
    subst this
    simp [stripTags_nil]
  | succ f ih =>
    intro l h
    cases l with
    | nil => simp [stripTags_nil]
    | cons c rest =>
      simp only [List.length_cons, Nat.succ_le_succ_iff] at h
      by_cases hc : c = '<'
      · subst hc
        cases hsp : splitAtGt rest with
        | none =>
          rw [stripTags_cons_none hsp]
          exact (ih rest h).cons₂ _
        | some p =>
          obtain ⟨b, a⟩ := p
          by_cases hb : b = []
          · subst hb
            rw [stripTags_cons_emptyb hsp]
            exact (ih rest h).cons₂ _
          · rw [stripTags_cons_match hsp hb]
            have hrest := splitAtGt_eq hsp
            have ha : a.length ≤ f := by
              have := splitAtGt_length hsp
              omega
            have h1 : List.Sublist a rest := by
              rw [hrest]
              have h2 : List.Sublist a ('>' :: a) := List.sublist_cons_self _ _
              exact h2.trans (List.sublist_append_right b _)
            exact ((ih a ha).trans h1).cons _
      · rw [stripTags_cons_ne hc]
        exact (ih rest h).cons₂ _

theorem stripTags_sublist (l : List Char) : List.Sublist (stripTags l) l :=
  stripTags_sublist_fuel l.length l (Nat.le_refl _)

theorem mem_stripTags {c : Char} {l : List Char} (h : c ∈ stripTags l) : c ∈ l :=
  (stripTags_sublist l).subset h

theorem stripTags_noOpenTag_fuel : ∀ fuel (l : List Char), l.length ≤ fuel →
    NoOpenTagP (stripTags l) := by
  intro fuel
  induction fuel with
  | zero =>
    intro l h
    have : l = [] := List.length_eq_zero.mp (Nat.le_zero.mp h)
    subst this
    rw [stripTags_nil]
    exact noOpenTag_nil
  | succ f ih =>
    intro l h
    cases l with
    | nil => rw [stripTags_nil]; exact noOpenTag_nil
    | cons c rest =>
      simp only [List.length_cons, Nat.succ_le_succ_iff] at h
      by_cases hc : c = '<'
      · subst hc
        cases hsp : splitAtGt rest with
        | none =>
          rw [stripTags_cons_none hsp]
          refine noOpenTag_cons_lt (ih rest h) (Or.inr ?_)
          intro hmem
          exact splitAtGt_none hsp (mem_stripTags hmem)
        | some p =>
          obtain ⟨b, a⟩ := p
          by_cases hb : b = []
          · subst hb
            rw [stripTags_cons_emptyb hsp]
            have hrest : rest = '>' :: a := splitAtGt_eq hsp
            refine noOpenTag_cons_lt (ih rest h) (Or.inl ?_)
            rw [hrest, stripTags_cons_ne (by decide)]
            rfl
          · rw [stripTags_cons_match hsp hb]
            have ha : a.length ≤ f := by
              have := splitAtGt_length hsp
              omega
            exact ih a ha
      · rw [stripTags_cons_ne hc]
        exact noOpenTag_cons_ne hc (ih rest h)

theorem stripTags_noOpenTag (l : List Char) : NoOpenTagP (stripTags l) :=
  stripTags_noOpenTag_fuel l.length l (Nat.le_refl _)

theorem splitAtGt_none_of_not_mem {l : List Char} (h : '>' ∉ l) : splitAtGt l = none := by
  cases hsp : splitAtGt l with
  | none => rfl
  | some p =>
    obtain ⟨b, a⟩ := p
    have := splitAtGt_eq hsp
    subst this
    exact absurd (List.mem_append_right b (List.mem_cons_self _ _)) h

theorem matchTag2_none_of_not_mem {l : List Char} (h : '>' ∉ l) : matchTag2 l = none := by
  cases hm : matchTag2 l with
  | none => rfl
  | some r => exact absurd (matchTag2_mem hm) h

theorem matchTag2_gt_head (t : List Char) : matchTag2 ('>' :: t) = none := by
  have hne : ¬ ('>' : Char) = '/' := by decide
  rw [matchTag2, if_neg hne]
  unfold matchTagCore
  have htw : List.takeWhile wordChar ('>' :: t) = [] := by
    rw [List.takeWhile_cons]
    simp [show wordChar '>' = false from by decide]
  rw [htw]
  simp

theorem stripTags_id_of_noOpenTag_fuel : ∀ fuel (l : List Char), l.length ≤ fuel →
    NoOpenTagP l → stripTags l = l := by
  intro fuel
  induction fuel with
  | zero =>
    intro l h _
    have : l = [] := List.length_eq_zero.mp (Nat.le_zero.mp h)
    subst this
    exact stripTags_nil
  | succ f ih =>
    intro l h hno
    cases l with
    | nil => exact stripTags_nil
    | cons c rest =>
      simp only [List.length_cons, Nat.succ_le_succ_iff] at h
      by_cases hc : c = '<'
      · subst hc
        rcases hno [] rest rfl with hhead | hnot
        · cases rest with
          | nil => simp at hhead
          | cons d t =>
            have hd : d = '>' := by
              simpa using hhead
            subst hd
            rw [stripTags_cons_emptyb (show splitAtGt ('>' :: t) = some ([], t) by
              simp [splitAtGt])]
            rw [ih ('>' :: t) h (noOpenTag_tail hno)]
        · rw [stripTags_cons_none (splitAtGt_none_of_not_mem hnot)]
          rw [ih rest h (noOpenTag_tail hno)]
      · rw [stripTags_cons_ne hc]
        rw [ih rest h (noOpenTag_tail hno)]

theorem stripTags_id_of_noOpenTag {l : List Char} (h : NoOpenTagP l) : stripTags l = l :=
  stripTags_id_of_noOpenTag_fuel l.length l (Nat.le_refl _) h

theorem stripTags2_id_of_noOpenTag_fuel : ∀ fuel (l : List Char), l.length ≤ fuel →
    NoOpenTagP l → stripTags2 l = l := by
  intro fuel
  induction fuel with
  | zero =>
    intro l h _
    have : l = [] := List.length_eq_zero.mp (Nat.le_zero.mp h)
    subst this
    exact stripTags2_nil
  | succ f ih =>
    intro l h hno
    cases l with
    | nil => exact stripTags2_nil
    | cons c rest =>
      simp only [List.length_cons, Nat.succ_le_succ_iff] at h
      by_cases hc : c = '<'
      · subst hc
        rcases hno [] rest rfl with hhead | hnot
        · cases rest with
          | nil => simp at hhead
          | cons d t =>
            have hd : d = '>' := by
              simpa using hhead
            subst hd
            rw [stripTags2_cons_none (matchTag2_gt_head t)]
            rw [ih ('>' :: t) h (noOpenTag_tail hno)]
        · rw [stripTags2_cons_none (matchTag2_none_of_not_mem hnot)]
          rw [ih rest h (noOpenTag_tail hno)]
      · rw [stripTags2_cons_ne hc]
        rw [ih rest h (noOpenTag_tail hno)]

theorem stripTags2_id_of_noOpenTag {l : List Char} (h : NoOpenTagP l) : stripTags2 l = l :=
  stripTags2_id_of_noOpenTag_fuel l.length l (Nat.le_refl _) h

/-- The second substitution pass never changes the output of the first. -/
theorem stripTags2_stripTags (l : List Char) : stripTags2 (stripTags l) = stripTags l :=
  stripTags2_id_of_noOpenTag (stripTags_noOpenTag l)

/-- With the second pass a no-op, the whole per-line transformation is
whitespace collapsing after the first pass. -/
theorem cleanLine_eq (l : List Char) : cleanLine l = normWs (stripTags l) := by
  rw [cleanLine, stripTags2_stripTags]

/-! ## Structure of `pyWords` and `normWs` output -/

/-- Word lists as produced by `str.split()`: nonempty and whitespace-free. -/
def goodWords (ws : List (List Char)) : Prop :=
  ∀ w ∈ ws, w ≠ [] ∧ ∀ c ∈ w, isPySpace c = false

theorem pyWords_good_fuel : ∀ fuel (l : List Char), l.length ≤ fuel →
    goodWords (pyWords l) := by
  intro fuel
  induction fuel with
  | zero =>
    intro l h
    have : l = [] := List.length_eq_zero.mp (Nat.le_zero.mp h)
    subst this
    rw [pyWords_nil]
    intro w hw
    simp at hw
  | succ f ih =>
    intro l h
    cases l with
    | nil =>
      rw [pyWords_nil]
      intro w hw
      simp at hw
    | cons c rest =>
      simp only [List.length_cons, Nat.succ_le_succ_iff] at h
      by_cases hc : isPySpace c
      · rw [pyWords_cons_space hc]
        exact ih rest h
      · rw [pyWords_cons_word (by simpa using hc)]
        intro w hw
        rcases List.mem_cons.mp hw with hw | hw
        · subst hw
          refine ⟨by simp, ?_⟩
          intro d hd
          rcases List.mem_cons.mp hd with hd | hd
          · subst hd
            simpa using hc
          · have := List.mem_takeWhile_imp hd
            simpa using this
        · have hlen : (rest.dropWhile (fun d => !isPySpace d)).length ≤ f := by
            have := (List.dropWhile_suffix (l := rest) (fun d => !isPySpace d)).sublist.length_le
            omega
          exact ih _ hlen w hw

theorem pyWords_good (l : List Char) : goodWords (pyWords l) :=
  pyWords_good_fuel l.length l (Nat.le_refl _)

theorem mem_pyWords_mem_fuel : ∀ fuel (l : List Char), l.length ≤ fuel →
    ∀ w ∈ pyWords l, ∀ c ∈ w, c ∈ l := by
  intro fuel
  induction fuel with
  | zero =>
    intro l h
    have : l = [] := List.length_eq_zero.mp (Nat.le_zero.mp h)
    subst this
    rw [pyWords_nil]
    intro w hw
    simp at hw
  | succ f ih =>
    intro l h
    cases l with
    | nil =>
      rw [pyWords_nil]
      intro w hw
      simp at hw
    | cons c rest =>
      simp only [List.length_cons, Nat.succ_le_succ_iff] at h
      by_cases hc : isPySpace c
      · rw [pyWords_cons_space hc]
        intro w hw d hd
        exact List.mem_cons_of_mem _ (ih rest h w hw d hd)
      · rw [pyWords_cons_word (by simpa using hc)]
        intro w hw d hd
        rcases List.mem_cons.mp hw with hw | hw
        · subst hw
          rcases List.mem_cons.mp hd with hd | hd
          · subst hd
            exact List.mem_cons_self _ _
          · have := (List.takeWhile_prefix (l := rest) (fun e => !isPySpace e)).sublist.subset hd
            exact List.mem_cons_of_mem _ this
        · have hlen : (rest.dropWhile (fun e => !isPySpace e)).length ≤ f := by
            have := (List.dropWhile_suffix (l := rest) (fun e => !isPySpace e)).sublist.length_le
            omega
          have := ih _ hlen w hw d hd
          have hsub := (List.dropWhile_suffix (l := rest) (fun e => !isPySpace e)).sublist.subset this
          exact List.mem_cons_of_mem _ hsub

theorem mem_pyWords_mem {l w : List Char} (hw : w ∈ pyWords l) {c : Char} (hc : c ∈ w) :
    c ∈ l :=
  mem_pyWords_mem_fuel l.length l (Nat.le_refl _) w hw c hc

theorem intercalate_nil_words (s : List Char) : List.intercalate s [] = [] := rfl

theorem intercalate_single (s w : List Char) : List.intercalate s [w] = w := by
  simp [List.intercalate, List.intersperse]

theorem intercalate_cons {s w : List Char} {ws : List (List Char)} (h : ws ≠ []) :
    List.intercalate s (w :: ws) = w ++ s ++ List.intercalate s ws := by
  cases ws with
  | nil => exact absurd rfl h
  | cons x t => simp [List.intercalate, List.intersperse]

theorem mem_intercalate_space {c : Char} : ∀ {ws : List (List Char)},
    c ∈ List.intercalate [' '] ws → c = ' ' ∨ ∃ w ∈ ws, c ∈ w := by
  intro ws
  induction ws with
  | nil =>
    intro h
    simp [intercalate_nil_words] at h
  | cons w t ih =>
    intro h
    cases t with
    | nil =>
      rw [intercalate_single] at h
      exact Or.inr ⟨w, List.mem_cons_self _ _, h⟩
    | cons x t2 =>
      rw [intercalate_cons (by simp)] at h
      rcases List.mem_append.mp h with h1 | h1
      · rcases List.mem_append.mp h1 with h2 | h2
        · exact Or.inr ⟨w, List.mem_cons_self _ _, h2⟩
        · simp at h2
          exact Or.inl h2
      · rcases ih h1 with h2 | ⟨w2, hw2, hc2⟩
        · exact Or.inl h2
        · exact Or.inr ⟨w2, List.mem_cons_of_mem _ hw2, hc2⟩

theorem mem_normWs {c : Char} {l : List Char} (h : c ∈ normWs l) : c = ' ' ∨ c ∈ l := by
  rcases mem_intercalate_space h with h1 | ⟨w, hw, hc⟩
  · exact Or.inl h1
  · exact Or.inr (mem_pyWords_mem hw hc)

/-- A list that is empty or starts with whitespace. -/
def spaceFront (x : List Char) : Prop :=
  x = [] ∨ ∃ d t, x = d :: t ∧ isPySpace d = true

theorem takeWhile_word_append : ∀ {w x : List Char}, (∀ c ∈ w, isPySpace c = false) →
    spaceFront x →
    (w ++ x).takeWhile (fun d => !isPySpace d) = w ∧
      (w ++ x).dropWhile (fun d => !isPySpace d) = x := by
  intro w
  induction w with
  | nil =>
    intro x _ hx
    rcases hx with hx | ⟨d, t, hx, hd⟩
    · subst hx
      exact ⟨rfl, rfl⟩
    · subst hx
      constructor
      · rw [List.nil_append, List.takeWhile_cons]
        simp [hd]
      · rw [List.nil_append, List.dropWhile_cons]
        simp [hd]
  | cons c w' ih =>
    intro x hw hx
    have hc : isPySpace c = false := hw c (List.mem_cons_self _ _)
    have hw' : ∀ d ∈ w', isPySpace d = false := fun d hd => hw d (List.mem_cons_of_mem _ hd)
    obtain ⟨ht, hd⟩ := ih hw' hx
    constructor
    · rw [List.cons_append, List.takeWhile_cons]
      simp [hc, ht]
    · rw [List.cons_append, List.dropWhile_cons]
      simp [hc, hd]

theorem pyWords_word_append {w x : List Char} (hne : w ≠ [])
    (hw : ∀ c ∈ w, isPySpace c = false) (hx : spaceFront x) :
    pyWords (w ++ x) = w :: pyWords x := by
  cases w with
  | nil => exact absurd rfl hne
  | cons c w' =>
    have hc : isPySpace c = false := hw c (List.mem_cons_self _ _)
    have hw' : ∀ d ∈ w', isPySpace d = false := fun d hd => hw d (List.mem_cons_of_mem _ hd)
    obtain ⟨ht, hd⟩ := takeWhile_word_append hw' hx
    rw [List.cons_append, pyWords_cons_word hc, ht, hd]

theorem pyWords_intercalate : ∀ {ws : List (List Char)}, goodWords ws →
    pyWords (List.intercalate [' '] ws) = ws := by
  intro ws
  induction ws with
  | nil =>
    intro _
    rw [intercalate_nil_words, pyWords_nil]
  | cons w t ih =>
    intro hgood
    have hw := hgood w (List.mem_cons_self _ _)
    have ht : goodWords t := fun v hv => hgood v (List.mem_cons_of_mem _ hv)
    cases t with
    | nil =>
      rw [intercalate_single]
      have : pyWords (w ++ []) = w :: pyWords [] :=
        pyWords_word_append hw.1 hw.2 (Or.inl rfl)
      rw [List.append_nil] at this
      rw [this, pyWords_nil]
    | cons x t2 =>
      rw [intercalate_cons (by simp), List.append_assoc, List.singleton_append]
      rw [pyWords_word_append hw.1 hw.2 (Or.inr ⟨' ', _, rfl, by decide⟩)]
      rw [pyWords_cons_space (by decide)]
      rw [ih ht]

theorem normWs_idem (l : List Char) : normWs (normWs l) = normWs l := by
  rw [normWs, normWs, pyWords_intercalate (pyWords_good l)]

/-! ## `normWs` preserves the no-open-tag shape -/

theorem happ_split : ∀ {a b pre suf : List Char} {c : Char}, a ++ b = pre ++ c :: suf →
    (∃ s1, a = pre ++ c :: s1 ∧ suf = s1 ++ b) ∨ (∃ p2, pre = a ++ p2 ∧ b = p2 ++ c :: suf) := by
  intro a
  induction a with
  | nil =>
    intro b pre suf c h
    exact Or.inr ⟨pre, rfl, h⟩
  | cons x a' ih =>
    intro b pre suf c h
    cases pre with
    | nil =>
      simp only [List.cons_append, List.nil_append, List.cons.injEq] at h
      exact Or.inl ⟨a', by simp [h.1], h.2.symm⟩
    | cons y pre' =>
      simp only [List.cons_append, List.cons.injEq] at h
      rcases ih h.2 with ⟨s1, h1, h2⟩ | ⟨p2, h1, h2⟩
      · exact Or.inl ⟨s1, by simp [h.1, h1], h2⟩
      · exact Or.inr ⟨p2, by simp [h.1, h1], h2⟩

theorem noOpenTag_suffix : ∀ {a r : List Char}, NoOpenTagP (a ++ r) → NoOpenTagP r := by
  intro a
  induction a with
  | nil => intro r h; exact h
  | cons x a' ih =>
    intro r h
    exact ih (noOpenTag_tail h)

theorem dropWhile_spaceFront (l : List Char) :
    spaceFront (l.dropWhile (fun d => !isPySpace d)) := by
  induction l with
  | nil => exact Or.inl rfl
  | cons c t ih =>
    rw [List.dropWhile_cons]
    by_cases hc : isPySpace c
    · simp only [hc, Bool.not_true, Bool.false_eq_true, if_false]
      exact Or.inr ⟨c, t, rfl, hc⟩
    · simp only [hc, Bool.not_false, if_true]
      exact ih

theorem spaceFront_head_ne_gt {r : List Char} (h : spaceFront r) : r.head? ≠ some '>' := by
  rcases h with h | ⟨d, t, hr, hd⟩
  · subst h; simp
  · subst hr
    simp only [List.head?_cons, Option.some.injEq]
    intro hcontra
    have hdeq : d = '>' := by injection hcontra
    subst hdeq
    exact absurd hd (by decide)

theorem noOpenTag_normWs_fuel : ∀ fuel (m : List Char), m.length ≤ fuel →
    NoOpenTagP m → NoOpenTagP (normWs m) := by
  intro fuel
  induction fuel with
  | zero =>
    intro m h _
    have : m = [] := List.length_eq_zero.mp (Nat.le_zero.mp h)
    subst this
    rw [normWs, pyWords_nil, intercalate_nil_words]
    exact noOpenTag_nil
  | succ f ih =>
    intro m h hno
    cases m with
    | nil =>
      rw [normWs, pyWords_nil, intercalate_nil_words]
      exact noOpenTag_nil
    | cons c rest =>
      simp only [List.length_cons, Nat.succ_le_succ_iff] at h
      by_cases hc : isPySpace c
      · have hrw : normWs (c :: rest) = normWs rest := by
          rw [normWs, normWs, pyWords_cons_space hc]
        rw [hrw]
        exact ih rest h (noOpenTag_tail hno)
      · have hcf : isPySpace c = false := by simpa using hc
        have hdec : c :: rest =
            (c :: rest.takeWhile (fun d => !isPySpace d)) ++ rest.dropWhile (fun d => !isPySpace d) := by
          rw [List.cons_append, List.takeWhile_append_dropWhile]
        have hsf : spaceFront (rest.dropWhile (fun d => !isPySpace d)) :=
          dropWhile_spaceFront rest
        have hnor : NoOpenTagP (rest.dropWhile (fun d => !isPySpace d)) := by
          rw [hdec] at hno
          exact noOpenTag_suffix hno
        have hrlen : (rest.dropWhile (fun d => !isPySpace d)).length ≤ f := by
          have := (List.dropWhile_suffix (l := rest) (fun d => !isPySpace d)).sublist.length_le
          omega
        have hpw : pyWords (c :: rest) =
            (c :: rest.takeWhile (fun d => !isPySpace d)) ::
              pyWords (rest.dropWhile (fun d => !isPySpace d)) := pyWords_cons_word hcf
        cases hpwr : pyWords (rest.dropWhile (fun d => !isPySpace d)) with
        | nil =>
          have hnw : normWs (c :: rest) = c :: rest.takeWhile (fun d => !isPySpace d) := by
            rw [normWs, hpw, hpwr, intercalate_single]
          rw [hnw]
          intro pre suf hps
          have hm : c :: rest = pre ++ '<' :: (suf ++ rest.dropWhile (fun d => !isPySpace d)) := by
            rw [hdec, hps]
            simp
          rcases hno pre (suf ++ rest.dropWhile (fun d => !isPySpace d)) hm with hhead | hnot
          · cases suf with
            | nil =>
              simp only [List.nil_append] at hhead
              exact absurd hhead (spaceFront_head_ne_gt hsf)
            | cons d t =>
              simp only [List.cons_append, List.head?_cons] at hhead
              exact Or.inl (by simpa using hhead)
          · refine Or.inr ?_
            intro hmem
            exact hnot (List.mem_append_left _ hmem)
        | cons x t2 =>
          have hnw : normWs (c :: rest) =
              (c :: rest.takeWhile (fun d => !isPySpace d)) ++
                ' ' :: normWs (rest.dropWhile (fun d => !isPySpace d)) := by
            rw [normWs, hpw, intercalate_cons (by rw [hpwr]; simp), List.append_assoc,
              List.singleton_append, normWs]
          rw [hnw]
          intro pre suf hps
          rcases happ_split hps with ⟨s1, h1, h2⟩ | ⟨p2, h1, h2⟩
          · have hm : c :: rest = pre ++ '<' :: (s1 ++ rest.dropWhile (fun d => !isPySpace d)) := by
              rw [hdec, h1]
              simp
            rcases hno pre (s1 ++ rest.dropWhile (fun d => !isPySpace d)) hm with hhead | hnot
            · cases s1 with
              | nil =>
                simp only [List.nil_append] at hhead
                exact absurd hhead (spaceFront_head_ne_gt hsf)
              | cons d t =>
                simp only [List.cons_append, List.head?_cons] at hhead
                rw [h2]
                exact Or.inl (by simpa using hhead)
            · refine Or.inr ?_
              rw [h2]
              intro hmem
              rcases List.mem_append.mp hmem with hmem1 | hmem1
              · exact hnot (List.mem_append_left _ hmem1)
              · rcases List.mem_cons.mp hmem1 with hmem2 | hmem2
                · exact absurd hmem2 (by decide)
                · rcases mem_normWs hmem2 with hsp | hmemr
                  · exact absurd hsp (by decide)
                  · exact hnot (List.mem_append_right s1 hmemr)
          · cases p2 with
            | nil =>
              simp only [List.nil_append, List.cons.injEq] at h2
              exact absurd h2.1 (by decide)
            | cons y p2' =>
              simp only [List.cons_append, List.cons.injEq] at h2
              exact ih _ hrlen hnor p2' suf h2.2

theorem noOpenTag_normWs {m : List Char} (h : NoOpenTagP m) : NoOpenTagP (normWs m) :=
  noOpenTag_normWs_fuel m.length m (Nat.le_refl _) h

/-! ## The per-line transformation is a fixpoint on its own output -/

theorem cleanLine_noOpenTag (l : List Char) : NoOpenTagP (cleanLine l) := by
  rw [cleanLine_eq]
  exact noOpenTag_normWs (stripTags_noOpenTag l)

theorem cleanLine_fixpoint (l : List Char) : cleanLine (cleanLine l) = cleanLine l := by
  have hno := cleanLine_noOpenTag l
  calc cleanLine (cleanLine l) = normWs (stripTags2 (stripTags (cleanLine l))) := rfl
    _ = normWs (stripTags2 (cleanLine l)) := by rw [stripTags_id_of_noOpenTag hno]
    _ = normWs (cleanLine l) := by rw [stripTags2_id_of_noOpenTag hno]
    _ = normWs (normWs (stripTags l)) := by rw [cleanLine_eq]
    _ = normWs (stripTags l) := normWs_idem _
    _ = cleanLine l := (cleanLine_eq l).symm

/-! ## Shape of `normWs` output: trimmed, single spaces, no other whitespace -/

theorem mem_of_getLast?_eq {l : List Char} {c : Char} (h : l.getLast? = some c) : c ∈ l := by
  have hmem : c ∈ l.getLast? := h ▸ rfl
  rcases List.mem_getLast?_eq_getLast hmem with ⟨hne, heq⟩
  rw [heq]
  exact List.getLast_mem hne

theorem intercalate_good_ne_nil {ws : List (List Char)} (hgood : goodWords ws)
    (hne : ws ≠ []) : List.intercalate [' '] ws ≠ [] := by
  cases ws with
  | nil => exact absurd rfl hne
  | cons w t =>
    have hw := hgood w (List.mem_cons_self _ _)
    cases t with
    | nil =>
      rw [intercalate_single]
      exact hw.1
    | cons x t2 =>
      rw [intercalate_cons (by simp)]
      intro hcontra
      rcases List.append_eq_nil.mp hcontra with ⟨h1, _⟩
      rcases List.append_eq_nil.mp h1 with ⟨h2, _⟩
      exact hw.1 h2

theorem intercalate_good_head {ws : List (List Char)} (hgood : goodWords ws) {c : Char}
    (h : (List.intercalate [' '] ws).head? = some c) : isPySpace c = false := by
  cases ws with
  | nil => rw [intercalate_nil_words] at h; simp at h
  | cons w t =>
    have hw := hgood w (List.mem_cons_self _ _)
    obtain ⟨cw, w', hweq⟩ : ∃ cw w', w = cw :: w' := by
      cases w with
      | nil => exact absurd rfl hw.1
      | cons cw w' => exact ⟨cw, w', rfl⟩
    subst hweq
    cases t with
    | nil =>
      rw [intercalate_single] at h
      simp only [List.head?_cons, Option.some.injEq] at h
      exact h ▸ hw.2 cw (List.mem_cons_self _ _)
    | cons x t2 =>
      rw [intercalate_cons (by simp), List.append_assoc, List.cons_append] at h
      simp only [List.head?_cons, Option.some.injEq] at h
      exact h ▸ hw.2 cw (List.mem_cons_self _ _)

theorem intercalate_good_getLast : ∀ {ws : List (List Char)}, goodWords ws → ∀ {c : Char},
    (List.intercalate [' '] ws).getLast? = some c → isPySpace c = false := by
  intro ws
  induction ws with
  | nil =>
    intro _ c h
    rw [intercalate_nil_words] at h
    simp at h
  | cons w t ih =>
    intro hgood c h
    have hw := hgood w (List.mem_cons_self _ _)
    have ht : goodWords t := fun v hv => hgood v (List.mem_cons_of_mem _ hv)
    cases t with
    | nil =>
      rw [intercalate_single] at h
      exact hw.2 c (mem_of_getLast?_eq h)
    | cons x t2 =>
      rw [intercalate_cons (by simp), List.append_assoc, List.singleton_append,
        List.getLast?_append_cons] at h
      have hicne : List.intercalate [' '] (x :: t2) ≠ [] :=
        intercalate_good_ne_nil ht (by simp)
      obtain ⟨d, ic', hiceq⟩ : ∃ d ic', List.intercalate [' '] (x :: t2) = d :: ic' := by
        cases hic : List.intercalate [' '] (x :: t2) with
        | nil => exact absurd hic hicne
        | cons d ic' => exact ⟨d, ic', rfl⟩
      rw [hiceq, List.getLast?_cons_cons] at h
      apply ih ht
      rw [hiceq]
      exact h

theorem chain_of_no_space : ∀ {w : List Char}, (∀ c ∈ w, isPySpace c = false) →
    List.Chain' (fun a b : Char => ¬(a = ' ' ∧ b = ' ')) w := by
  intro w
  induction w with
  | nil => intro _; simp
  | cons a t ih =>
    intro hw
    rw [List.chain'_cons']
    constructor
    · intro y _ hab
      have := hw a (List.mem_cons_self _ _)
      rw [hab.1] at this
      exact absurd this (by decide)
    · exact ih (fun c hc => hw c (List.mem_cons_of_mem _ hc))

theorem intercalate_good_chain : ∀ {ws : List (List Char)}, goodWords ws →
    List.Chain' (fun a b : Char => ¬(a = ' ' ∧ b = ' ')) (List.intercalate [' '] ws) := by
  intro ws
  induction ws with
  | nil =>
    intro _
    rw [intercalate_nil_words]
    simp
  | cons w t ih =>
    intro hgood
    have hw := hgood w (List.mem_cons_self _ _)
    have ht : goodWords t := fun v hv => hgood v (List.mem_cons_of_mem _ hv)
    cases t with
    | nil =>
      rw [intercalate_single]
      exact chain_of_no_space hw.2
    | cons x t2 =>
      rw [intercalate_cons (by simp), List.append_assoc, List.singleton_append]
      rw [List.chain'_append]
      refine ⟨chain_of_no_space hw.2, ?_, ?_⟩
      · rw [List.chain'_cons']
        constructor
        · intro y hy hab
          have hhead : (List.intercalate [' '] (x :: t2)).head? = some y := by
            simpa using hy
          have := intercalate_good_head ht hhead
          rw [hab.2] at this
          exact absurd this (by decide)
        · exact ih ht
      · intro a ha y hy hab
        have haw : a ∈ w := mem_of_getLast?_eq (by simpa using ha)
        have := hw.2 a haw
        rw [hab.1] at this
        exact absurd this (by decide)

theorem normWs_head {m : List Char} {c : Char} (h : (normWs m).head? = some c) :
    isPySpace c = false :=
  intercalate_good_head (pyWords_good m) h

theorem normWs_getLast {m : List Char} {c : Char} (h : (normWs m).getLast? = some c) :
    isPySpace c = false :=
  intercalate_good_getLast (pyWords_good m) h

theorem normWs_chain (m : List Char) :
    List.Chain' (fun a b : Char => ¬(a = ' ' ∧ b = ' ')) (normWs m) :=
  intercalate_good_chain (pyWords_good m)

theorem normWs_space_mem {m : List Char} {c : Char} (hc : c ∈ normWs m)
    (hsp : isPySpace c = true) : c = ' ' := by
  rcases mem_intercalate_space hc with h | ⟨w, hw, hcw⟩
  · exact h
  · have := (pyWords_good m) w hw
    rw [this.2 c hcw] at hsp
    exact absurd hsp (by simp)

/-! ## The loop as deduplication of the processed line stream -/

theorem processedLines_nil : processedLines [] = [] := rfl

theorem processedLines_cons_skip {line : List Char} {rest : List (List Char)}
    (h : skipLine line = true) : processedLines (line :: rest) = processedLines rest := by
  simp [processedLines, List.filter_cons, h]

theorem processedLines_cons_empty {line : List Char} {rest : List (List Char)}
    (h : skipLine line = false) (he : cleanLine line = []) :
    processedLines (line :: rest) = processedLines rest := by
  simp [processedLines, List.filter_cons, h, List.map_cons, he]

theorem processedLines_cons_keep {line : List Char} {rest : List (List Char)}
    (h : skipLine line = false) (he : cleanLine line ≠ []) :
    processedLines (line :: rest) = cleanLine line :: processedLines rest := by
  have he' : (cleanLine line).isEmpty = false := by
    cases hc : cleanLine line with
    | nil => exact absurd hc he
    | cons a b => rfl
  simp [processedLines, List.filter_cons, h, List.map_cons, he']

theorem cleanLoop_eq_firstDedup : ∀ (lines seen : List (List Char)),
    cleanLoop lines seen = firstDedup (processedLines lines) seen := by
  intro lines
  induction lines with
  | nil => intro seen; rfl
  | cons line rest ih =>
    intro seen
    by_cases hskip : skipLine line
    · rw [processedLines_cons_skip hskip]
      rw [cleanLoop, if_pos hskip]
      exact ih seen
    · have hskip' : skipLine line = false := by simpa using hskip
      by_cases hemp : cleanLine line = []
      · rw [processedLines_cons_empty hskip' hemp]
        rw [cleanLoop, if_neg hskip]
        rw [if_neg (by simp [hemp])]
        exact ih seen
      · rw [processedLines_cons_keep hskip' hemp]
        rw [cleanLoop, if_neg hskip]
        by_cases hseen : cleanLine line ∈ seen
        · rw [if_neg (by simp [hseen])]
          rw [firstDedup, if_pos hseen]
          exact ih seen
        · rw [if_pos ⟨hemp, hseen⟩]
          rw [firstDedup, if_neg hseen]
          rw [ih (cleanLine line :: seen)]

theorem mem_firstDedup : ∀ {x : List Char} {l seen : List (List Char)},
    x ∈ firstDedup l seen ↔ x ∈ l ∧ x ∉ seen := by
  intro x l
  induction l with
  | nil =>
    intro seen
    rw [firstDedup]
    simp
  | cons y t ih =>
    intro seen
    by_cases hy : y ∈ seen
    · rw [firstDedup, if_pos hy, ih]
      constructor
      · intro ⟨h1, h2⟩
        exact ⟨List.mem_cons_of_mem _ h1, h2⟩
      · intro ⟨h1, h2⟩
        rcases List.mem_cons.mp h1 with h3 | h3
        · subst h3
          exact absurd hy h2
        · exact ⟨h3, h2⟩
    · rw [firstDedup, if_neg hy]
      constructor
      · intro hmem
        rcases List.mem_cons.mp hmem with h3 | h3
        · subst h3
          exact ⟨List.mem_cons_self _ _, hy⟩
        · obtain ⟨h4, h5⟩ := ih.mp h3
          refine ⟨List.mem_cons_of_mem _ h4, ?_⟩
          intro hc
          exact h5 (List.mem_cons_of_mem _ hc)
      · intro ⟨h1, h2⟩
        rcases List.mem_cons.mp h1 with h3 | h3
        · subst h3
          exact List.mem_cons_self _ _
        · by_cases hxy : x = y
          · subst hxy
            exact List.mem_cons_self _ _
          · refine List.mem_cons_of_mem _ (ih.mpr ⟨h3, ?_⟩)
            intro hc
            rcases List.mem_cons.mp hc with h4 | h4
            · exact hxy h4
            · exact h2 h4

theorem nodup_firstDedup : ∀ (l seen : List (List Char)), (firstDedup l seen).Nodup := by
  intro l
  induction l with
  | nil =>
    intro seen
    rw [firstDedup]
    exact List.nodup_nil
  | cons y t ih =>
    intro seen
    by_cases hy : y ∈ seen
    · rw [firstDedup, if_pos hy]
      exact ih seen
    · rw [firstDedup, if_neg hy]
      refine List.Nodup.cons ?_ (ih (y :: seen))
      intro hc
      exact (mem_firstDedup.mp hc).2 (List.mem_cons_self _ _)

theorem firstIdx_cons_self (x : List Char) (t : List (List Char)) :
    firstIdx x (x :: t) = 0 := by
  rw [firstIdx, if_pos rfl]

theorem firstIdx_cons_ne {x y : List Char} (t : List (List Char)) (h : ¬ y = x) :
    firstIdx x (y :: t) = firstIdx x t + 1 := by
  rw [firstIdx, if_neg h]

theorem firstIdx_append_not_mem {x : List Char} : ∀ {a : List (List Char)}
    (b : List (List Char)), x ∉ a → firstIdx x (a ++ b) = a.length + firstIdx x b := by
  intro a
  induction a with
  | nil =>
    intro b _
    simp
  | cons y t ih =>
    intro b hx
    have hyx : ¬ y = x := by
      intro hc
      exact hx (hc ▸ List.mem_cons_self _ _)
    rw [List.cons_append, firstIdx_cons_ne _ hyx, ih b (fun hc => hx (List.mem_cons_of_mem _ hc))]
    simp
    omega

theorem firstDedup_pairwise_firstIdx : ∀ (l pre seen : List (List Char)),
    (∀ z, z ∈ seen ↔ z ∈ pre) →
    (firstDedup l seen).Pairwise
      (fun x y => firstIdx x (pre ++ l) < firstIdx y (pre ++ l)) := by
  intro l
  induction l with
  | nil =>
    intro pre seen _
    rw [firstDedup]
    exact List.Pairwise.nil
  | cons x xs ih =>
    intro pre seen hseen
    by_cases hx : x ∈ seen
    · rw [firstDedup, if_pos hx]
      have hseen' : ∀ z, z ∈ seen ↔ z ∈ pre ++ [x] := by
        intro z
        rw [hseen z]
        constructor
        · intro h
          exact List.mem_append_left _ h
        · intro h
          rcases List.mem_append.mp h with h | h
          · exact h
          · simp at h
            subst h
            exact (hseen z).mp hx
      have := ih (pre ++ [x]) seen hseen'
      rw [List.append_assoc, List.singleton_append] at this
      exact this
    · rw [firstDedup, if_neg hx]
      have hxpre : x ∉ pre := fun hc => hx ((hseen x).mpr hc)
      refine List.Pairwise.cons ?_ ?_
      · intro y hy
        obtain ⟨hyxs, hyseen⟩ := mem_firstDedup.mp hy
        have hyx : y ≠ x := by
          intro hc
          exact hyseen (hc ▸ List.mem_cons_self _ _)
        have hypre : y ∉ pre := by
          intro hc
          exact hyseen (List.mem_cons_of_mem _ ((hseen y).mpr hc))
        rw [firstIdx_append_not_mem _ hxpre, firstIdx_cons_self]
        rw [firstIdx_append_not_mem _ hypre, firstIdx_cons_ne _ (fun hc => hyx hc.symm)]
        omega
      · have hseen' : ∀ z, z ∈ x :: seen ↔ z ∈ pre ++ [x] := by
          intro z
          constructor
          · intro h
            rcases List.mem_cons.mp h with h | h
            · subst h
              exact List.mem_append_right _ (List.mem_cons_self _ _)
            · exact List.mem_append_left _ ((hseen z).mp h)
          · intro h
            rcases List.mem_append.mp h with h | h
            · exact List.mem_cons_of_mem _ ((hseen z).mpr h)
            · simp at h
              subst h
              exact List.mem_cons_self _ _
        have := ih (pre ++ [x]) (x :: seen) hseen'
        rw [List.append_assoc, List.singleton_append] at this
        exact this

/-! ## Lines of the input and output: `splitNl` facts -/

theorem splitNl_mem_no_nl : ∀ {s : List Char}, ∀ l ∈ splitNl s, '\n' ∉ l := by
  intro s
  induction s with
  | nil =>
    intro l hl
    rw [splitNl] at hl
    simp at hl
    subst hl
    simp
  | cons c rest ih =>
    intro l hl
    by_cases hc : c = '\n'
    · rw [splitNl, if_pos hc] at hl
      rcases List.mem_cons.mp hl with h | h
      · subst h
        simp
      · exact ih l h
    · rw [splitNl, if_neg hc] at hl
      cases hsp : splitNl rest with
      | nil =>
        rw [hsp] at hl
        simp at hl
        subst hl
        simp [hc]
        intro hcontra
        exact hc hcontra.symm
      | cons h0 t0 =>
        rw [hsp] at hl
        rcases List.mem_cons.mp hl with h | h
        · subst h
          intro hmem
          rcases List.mem_cons.mp hmem with h1 | h1
          · exact hc h1.symm
          · exact ih h0 (hsp ▸ List.mem_cons_self _ _) h1
        · exact ih l (hsp ▸ List.mem_cons_of_mem _ h)

theorem splitNl_no_nl : ∀ {w : List Char}, '\n' ∉ w → splitNl w = [w] := by
  intro w
  induction w with
  | nil => intro _; rfl
  | cons c rest ih =>
    intro h
    have hc : ¬ c = '\n' := by
      intro hc
      exact h (hc ▸ List.mem_cons_self _ _)
    have hrest : '\n' ∉ rest := fun hm => h (List.mem_cons_of_mem _ hm)
    rw [splitNl, if_neg hc, ih hrest]

theorem splitNl_append_nl : ∀ {w : List Char} (t : List Char), '\n' ∉ w →
    splitNl (w ++ '\n' :: t) = w :: splitNl t := by
  intro w
  induction w with
  | nil =>
    intro t _
    rw [List.nil_append, splitNl, if_pos rfl]
  | cons c rest ih =>
    intro t h
    have hc : ¬ c = '\n' := by
      intro hc
      exact h (hc ▸ List.mem_cons_self _ _)
    have hrest : '\n' ∉ rest := fun hm => h (List.mem_cons_of_mem _ hm)
    rw [List.cons_append, splitNl, if_neg hc, ih t hrest]

theorem splitNl_intercalate : ∀ {ls : List (List Char)}, ls ≠ [] →
    (∀ l ∈ ls, '\n' ∉ l) → splitNl (List.intercalate ['\n'] ls) = ls := by
  intro ls
  induction ls with
  | nil => intro h _; exact absurd rfl h
  | cons w t ih =>
    intro _ hnl
    cases t with
    | nil =>
      rw [intercalate_single]
      rw [splitNl_no_nl (hnl w (List.mem_cons_self _ _))]
    | cons x t2 =>
      rw [intercalate_cons (by simp), List.append_assoc, List.singleton_append]
      rw [splitNl_append_nl _ (hnl w (List.mem_cons_self _ _))]
      rw [ih (by simp) (fun l hl => hnl l (List.mem_cons_of_mem _ hl))]

/-! ## Skipped lines contribute nothing; surviving lines are kept verbatim -/

theorem cleanLoop_filter (P : List Char → Bool) (hP : ∀ l, P l = false → skipLine l = true) :
    ∀ (lines seen : List (List Char)),
      cleanLoop lines seen = cleanLoop (lines.filter P) seen := by
  intro lines
  induction lines with
  | nil => intro seen; rfl
  | cons line rest ih =>
    intro seen
    cases hp : P line with
    | false =>
      have hskip := hP line hp
      rw [List.filter_cons, hp]
      rw [cleanLoop, if_pos hskip]
      exact ih seen
    | true =>
      rw [List.filter_cons, hp]
      simp only [if_true]
      rw [cleanLoop, cleanLoop]
      by_cases hskip : skipLine line
      · rw [if_pos hskip, if_pos hskip]
        exact ih seen
      · rw [if_neg hskip, if_neg hskip]
        by_cases hcond : cleanLine line ≠ [] ∧ cleanLine line ∉ seen
        · rw [if_pos hcond, if_pos hcond, ih (cleanLine line :: seen)]
        · rw [if_neg hcond, if_neg hcond]
          exact ih seen

theorem cleanLoop_all_kept : ∀ (ls : List (List Char)),
    (∀ l ∈ ls, skipLine l = false ∧ cleanLine l = l ∧ l ≠ []) → ls.Nodup →
    ∀ seen, (∀ l ∈ ls, l ∉ seen) → cleanLoop ls seen = ls := by
  intro ls
  induction ls with
  | nil => intro _ _ seen _; rfl
  | cons x xs ih =>
    intro hall hnodup seen hseen
    obtain ⟨hskip, hfix, hne⟩ := hall x (List.mem_cons_self _ _)
    rw [cleanLoop, if_neg (by simp [hskip])]
    rw [if_pos (by rw [hfix]; exact ⟨hne, hseen x (List.mem_cons_self _ _)⟩)]
    rw [hfix]
    congr 1
    refine ih (fun l hl => hall l (List.mem_cons_of_mem _ hl)) (List.Nodup.of_cons hnodup) _ ?_
    intro l hl hc
    rcases List.mem_cons.mp hc with h | h
    · subst h
      exact (List.nodup_cons.mp hnodup).1 hl
    · exact hseen l (List.mem_cons_of_mem _ hl) h

theorem mem_processedLines {x : List Char} {lines : List (List Char)}
    (h : x ∈ processedLines lines) :
    ∃ line ∈ lines, skipLine line = false ∧ x = cleanLine line ∧ x ≠ [] := by
  rw [processedLines] at h
  obtain ⟨hmap, hne⟩ := List.mem_filter.mp h
  obtain ⟨line, hline, heq⟩ := List.mem_map.mp hmap
  obtain ⟨hmem, hsk⟩ := List.mem_filter.mp hline
  refine ⟨line, hmem, by simpa using hsk, heq.symm, ?_⟩
  intro hc
  rw [hc] at hne
  simp at hne

/-! ## `pyStrip` facts -/

theorem pyStrip_isEmpty_of_all_space {l : List Char} (h : ∀ c ∈ l, isPySpace c = true) :
    (pyStrip l).isEmpty = true := by
  have h1 : l.dropWhile isPySpace = [] := List.dropWhile_eq_nil_iff.mpr h
  rw [pyStrip, h1]
  rfl

theorem pyStrip_trimmed {x : List Char}
    (hhead : ∀ c, x.head? = some c → isPySpace c = false)
    (hlast : ∀ c, x.getLast? = some c → isPySpace c = false) : pyStrip x = x := by
  cases x with
  | nil => rfl
  | cons cx x' =>
    have hc : isPySpace cx = false := hhead cx rfl
    have h1 : (cx :: x').dropWhile isPySpace = cx :: x' := by
      rw [List.dropWhile_cons]
      simp [hc]
    rw [pyStrip, h1]
    cases hrev : (cx :: x').reverse with
    | nil => exact absurd hrev (by simp)
    | cons d r' =>
      have hd : (cx :: x').getLast? = some d := by
        rw [← List.head?_reverse, hrev]
        rfl
      have hdns : isPySpace d = false := hlast d hd
      have h2 : (d :: r').dropWhile isPySpace = d :: r' := by
        rw [List.dropWhile_cons]
        simp [hdns]
      rw [h2, ← hrev, List.reverse_reverse]

/-! ## Properties of every emitted output line -/

theorem mem_cleanLoop_out {s x : List Char} (h : x ∈ cleanLoop (splitNl s) []) :
    ∃ line ∈ splitNl s, skipLine line = false ∧ x = cleanLine line ∧ x ≠ [] := by
  rw [cleanLoop_eq_firstDedup] at h
  exact mem_processedLines (mem_firstDedup.mp h).1

theorem cleanLine_head {l : List Char} {c : Char} (h : (cleanLine l).head? = some c) :
    isPySpace c = false := by
  rw [cleanLine_eq] at h
  exact normWs_head h

theorem cleanLine_getLast {l : List Char} {c : Char} (h : (cleanLine l).getLast? = some c) :
    isPySpace c = false := by
  rw [cleanLine_eq] at h
  exact normWs_getLast h

theorem cleanLine_chain (l : List Char) :
    List.Chain' (fun a b : Char => ¬(a = ' ' ∧ b = ' ')) (cleanLine l) := by
  rw [cleanLine_eq]
  exact normWs_chain _

theorem cleanLine_space_mem {l : List Char} {c : Char} (hc : c ∈ cleanLine l)
    (hsp : isPySpace c = true) : c = ' ' := by
  rw [cleanLine_eq] at hc
  exact normWs_space_mem hc hsp

theorem cleanLine_mem {l : List Char} {c : Char} (hc : c ∈ cleanLine l) :
    c = ' ' ∨ c ∈ l := by
  rw [cleanLine_eq] at hc
  rcases mem_normWs hc with h | h
  · exact Or.inl h
  · exact Or.inr (mem_stripTags h)

theorem out_line_no_nl {s x : List Char} (h : x ∈ cleanLoop (splitNl s) []) : '\n' ∉ x := by
  obtain ⟨line, hline, _, hx, _⟩ := mem_cleanLoop_out h
  intro hmem
  rw [hx] at hmem
  rcases cleanLine_mem hmem with h1 | h1
  · exact absurd h1 (by decide)
  · exact splitNl_mem_no_nl line hline h1

theorem out_line_strip_ne {s x : List Char} (h : x ∈ cleanLoop (splitNl s) []) :
    (pyStrip x).isEmpty = false := by
  obtain ⟨line, hline, _, hx, hne⟩ := mem_cleanLoop_out h
  have hstrip : pyStrip x = x := by
    rw [hx]
    exact pyStrip_trimmed (fun c hc => cleanLine_head hc) (fun c hc => cleanLine_getLast hc)
  rw [hstrip]
  cases hxc : x with
  | nil => exact absurd hxc hne
  | cons a b => rfl

theorem out_line_fixpoint {s x : List Char} (h : x ∈ cleanLoop (splitNl s) []) :
    cleanLine x = x := by
  obtain ⟨line, _, _, hx, _⟩ := mem_cleanLoop_out h
  rw [hx]
  exact cleanLine_fixpoint line

theorem cleanLoop_all_skipped : ∀ {lines : List (List Char)},
    (∀ l ∈ lines, skipLine l = true) → ∀ seen, cleanLoop lines seen = [] := by
  intro lines
  induction lines with
  | nil => intro _ seen; rfl
  | cons line rest ih =>
    intro h seen
    rw [cleanLoop, if_pos (h line (List.mem_cons_self _ _))]
    exact ih (fun l hl => h l (List.mem_cons_of_mem _ hl)) seen

theorem clean_nil : clean_vtt_subtitle [] = [] := by decide

theorem nodup_out (s : List Char) : (cleanLoop (splitNl s) []).Nodup := by
  rw [cleanLoop_eq_firstDedup]
  exact nodup_firstDedup _ _

/-! # The claims -/

/-- C1: For every input string, each line of the output of clean appears exactly
once (the emitted lines are pairwise distinct), the emitted lines are exactly
the distinct members of the processed stream of cleaned forms, and they occur
in the order of the first occurrence of their cleaned form among the input
lines. -/
theorem C1_output_dedup_first_occurrence_order (s : List Char) :
    (cleanLoop (splitNl s) []).Nodup ∧
    (∀ x, x ∈ cleanLoop (splitNl s) [] ↔ x ∈ processedLines (splitNl s)) ∧
    (cleanLoop (splitNl s) []).Pairwise
      (fun x y => firstIdx x (processedLines (splitNl s)) <
        firstIdx y (processedLines (splitNl s))) := by
  refine ⟨nodup_out s, ?_, ?_⟩
  · intro x
    rw [cleanLoop_eq_firstDedup, mem_firstDedup]
    simp
  · rw [cleanLoop_eq_firstDedup]
    have hpw := firstDedup_pairwise_firstIdx (processedLines (splitNl s)) [] [] (by simp)
    rw [List.nil_append] at hpw
    exact hpw

/-- C2 counterexample: cleaning is not idempotent.  The input consisting of the
single line `" WEBVTT x"` is not a header line (it starts with a space), and it
cleans to `"WEBVTT x"`; re-cleaning that output discards it as a header line,
yielding the empty output. -/
theorem C2_counterexample_not_idempotent :
    clean_vtt_subtitle (clean_vtt_subtitle (" WEBVTT x".toList)) ≠
      clean_vtt_subtitle (" WEBVTT x".toList) := by decide

/-- C2 (amended): clean is idempotent whenever no emitted output line starts
with one of the header prefixes and no emitted output line contains the
substring of arrow characters (the only ways re-cleaning can drop a line). -/
theorem C2_idempotent_unless_output_reskipped (s : List Char)
    (h : ∀ l ∈ cleanLoop (splitNl s) [],
      isHeaderLine l = false ∧ hasSubstring arrow l = false) :
    clean_vtt_subtitle (clean_vtt_subtitle s) = clean_vtt_subtitle s := by
  by_cases hnil : cleanLoop (splitNl s) [] = []
  · have hs : clean_vtt_subtitle s = [] := by
      rw [clean_vtt_subtitle, hnil, intercalate_nil_words]
    rw [hs, clean_nil]
  · have hnl : ∀ l ∈ cleanLoop (splitNl s) [], '\n' ∉ l :=
      fun l hl => out_line_no_nl hl
    have hsplit : splitNl (clean_vtt_subtitle s) = cleanLoop (splitNl s) [] := by
      rw [clean_vtt_subtitle]
      exact splitNl_intercalate hnil hnl
    have hall : ∀ l ∈ cleanLoop (splitNl s) [],
        skipLine l = false ∧ cleanLine l = l ∧ l ≠ [] := by
      intro l hl
      obtain ⟨hhdr, harw⟩ := h l hl
      refine ⟨?_, out_line_fixpoint hl, ?_⟩
      · rw [skipLine, hhdr, harw, out_line_strip_ne hl]
        rfl
      · obtain ⟨line, hline, hsk, hx, hne⟩ := mem_cleanLoop_out hl
        exact hne
    have hkept : cleanLoop (cleanLoop (splitNl s) []) [] = cleanLoop (splitNl s) [] :=
      cleanLoop_all_kept _ hall (nodup_out s) [] (by simp)
    calc clean_vtt_subtitle (clean_vtt_subtitle s)
        = List.intercalate ['\n'] (cleanLoop (splitNl (clean_vtt_subtitle s)) []) := rfl
      _ = List.intercalate ['\n'] (cleanLoop (cleanLoop (splitNl s) []) []) := by rw [hsplit]
      _ = List.intercalate ['\n'] (cleanLoop (splitNl s) []) := by rw [hkept]
      _ = clean_vtt_subtitle s := rfl

/-- C2 witness: a concrete input satisfying the amended hypothesis, on which
cleaning is idempotent. -/
theorem C2_idempotent_witness :
    (∀ l ∈ cleanLoop (splitNl ("WEBVTT\nHello <c>world</c>\nHello   world".toList)) [],
      isHeaderLine l = false ∧ hasSubstring arrow l = false) ∧
    clean_vtt_subtitle
        (clean_vtt_subtitle ("WEBVTT\nHello <c>world</c>\nHello   world".toList)) =
      clean_vtt_subtitle ("WEBVTT\nHello <c>world</c>\nHello   world".toList) :=
  ⟨by decide, C2_idempotent_unless_output_reskipped _ (by decide)⟩

/-- C3 counterexample: the output CAN contain a line beginning with a header
prefix: the input line `" WEBVTT"` is not discarded (the prefix test is applied
before whitespace collapsing) and cleans to the output line `"WEBVTT"`. -/
theorem C3_counterexample_header_in_output :
    cleanLoop (splitNl (" WEBVTT".toList)) [] = ["WEBVTT".toList] ∧
      isHeaderLine ("WEBVTT".toList) = true := by decide

/-- C3 (amended): every INPUT line beginning with one of the literal header
prefixes is discarded — removing all such lines from the input's line list
leaves the output unchanged. -/
theorem C3_header_input_lines_discarded (s : List Char) :
    clean_vtt_subtitle s =
      List.intercalate ['\n']
        (cleanLoop ((splitNl s).filter (fun l => !isHeaderLine l)) []) := by
  have hP : ∀ l, (!isHeaderLine l) = false → skipLine l = true := by
    intro l hl
    have hh : isHeaderLine l = true := by simpa using hl
    simp [skipLine, hh]
  rw [clean_vtt_subtitle, cleanLoop_filter _ hP]

/-- C4 counterexample: an output line CAN contain the arrow substring: the
input line `"--<c>>"` does not contain it, but tag removal glues `"--"` to the
trailing `">"`, emitting the output line `"-->"`. -/
theorem C4_counterexample_arrow_in_output :
    cleanLoop (splitNl ("--<c>>".toList)) [] = ["-->".toList] ∧
      hasSubstring arrow ("-->".toList) = true := by decide

/-- C4 (amended): every INPUT line containing the arrow substring is
discarded — removing all such lines from the input's line list leaves the
output unchanged. -/
theorem C4_arrow_input_lines_discarded (s : List Char) :
    clean_vtt_subtitle s =
      List.intercalate ['\n']
        (cleanLoop ((splitNl s).filter (fun l => !hasSubstring arrow l)) []) := by
  have hP : ∀ l, (!hasSubstring arrow l) = false → skipLine l = true := by
    intro l hl
    have hh : hasSubstring arrow l = true := by simpa using hl
    simp [skipLine, hh]
  rw [clean_vtt_subtitle, cleanLoop_filter _ hP]

/-- C5: the two-pass tag stripping equals the single first pass on every line:
the second pass never changes the output of the first. -/
theorem C5_second_tag_pass_redundant (l : List Char) :
    stripTags2 (stripTags l) = stripTags l :=
  stripTags2_stripTags l

/-- C6: clean is a total function of the line stream: the output is exactly the
first-occurrence deduplication of the processed stream, in which every input
line that passes the skip tests is passed through the tag-removal and
whitespace-collapsing pipeline and nothing else is done to it. -/
theorem C6_total_pipeline (s : List Char) :
    clean_vtt_subtitle s =
      List.intercalate ['\n'] (firstDedup (processedLines (splitNl s)) []) := by
  rw [clean_vtt_subtitle, cleanLoop_eq_firstDedup]

/-- C7: when the cleaned output is the empty string, the reported statistics
are a line count of one (splitting the empty string yields one empty piece)
and a character count of zero. -/
theorem C7_empty_output_statistics (s : List Char) (h : clean_vtt_subtitle s = []) :
    line_count (clean_vtt_subtitle s) = 1 ∧ char_count (clean_vtt_subtitle s) = 0 := by
  rw [h]
  exact ⟨rfl, rfl⟩

/-- C7 witness: an input of only header and timing lines cleans to the empty
string, with line count one and character count zero. -/
theorem C7_empty_output_witness :
    clean_vtt_subtitle ("WEBVTT\n00:00:01.000 --> 00:00:04.000".toList) = [] ∧
      (line_count (clean_vtt_subtitle ("WEBVTT\n00:00:01.000 --> 00:00:04.000".toList)) = 1 ∧
        char_count (clean_vtt_subtitle ("WEBVTT\n00:00:01.000 --> 00:00:04.000".toList)) = 0) :=
  ⟨by decide, C7_empty_output_statistics _ (by decide)⟩

/-- C8: the output is the emitted lines joined by single newlines, every
emitted line is nonempty, and blank (whitespace-only) input lines are
discarded: filtering them from the input's line list leaves the output
unchanged. -/
theorem C8_output_no_blank_lines (s : List Char) :
    clean_vtt_subtitle s = List.intercalate ['\n'] (cleanLoop (splitNl s) []) ∧
    (∀ l ∈ cleanLoop (splitNl s) [], l ≠ []) ∧
    clean_vtt_subtitle s =
      List.intercalate ['\n']
        (cleanLoop ((splitNl s).filter (fun l => !(pyStrip l).isEmpty)) []) := by
  refine ⟨rfl, ?_, ?_⟩
  · intro l hl
    obtain ⟨line, hline, hsk, hx, hne⟩ := mem_cleanLoop_out hl
    exact hne
  · have hP : ∀ l, (!(pyStrip l).isEmpty) = false → skipLine l = true := by
      intro l hl
      have hh : (pyStrip l).isEmpty = true := by simpa using hl
      simp [skipLine, hh]
    rw [clean_vtt_subtitle, cleanLoop_filter _ hP]

/-- C8 witness: a concrete emitted line of a concrete input is nonempty. -/
theorem C8_no_blank_witness :
    ("Hi".toList ∈ cleanLoop (splitNl ("Hi\n \n\nHi".toList)) []) ∧ "Hi".toList ≠ [] :=
  ⟨by decide, (C8_output_no_blank_lines ("Hi\n \n\nHi".toList)).2.1 _ (by decide)⟩

/-- C9: every emitted output line is whitespace-normalized: its first and last
characters are not whitespace, it contains no tab and no newline, and it never
has two consecutive spaces. -/
theorem C9_output_lines_whitespace_normalized (s : List Char) :
    ∀ l ∈ cleanLoop (splitNl s) [],
      (∀ c, l.head? = some c → isPySpace c = false) ∧
      (∀ c, l.getLast? = some c → isPySpace c = false) ∧
      '\t' ∉ l ∧ '\n' ∉ l ∧
      List.Chain' (fun a b : Char => ¬(a = ' ' ∧ b = ' ')) l := by
  intro l hl
  obtain ⟨line, hline, hsk, hx, hne⟩ := mem_cleanLoop_out hl
  refine ⟨?_, ?_, ?_, out_line_no_nl hl, ?_⟩
  · intro c hc
    rw [hx] at hc
    exact cleanLine_head hc
  · intro c hc
    rw [hx] at hc
    exact cleanLine_getLast hc
  · intro hc
    rw [hx] at hc
    have htab := cleanLine_space_mem hc (by decide)
    exact absurd htab (by decide)
  · rw [hx]
    exact cleanLine_chain line

/-- C9 witness: the properties at a concrete emitted line of a concrete
input containing tabs and repeated spaces. -/
theorem C9_normalized_witness :
    ("a b".toList ∈ cleanLoop (splitNl ("  a\tb  \nc".toList)) []) ∧
      ((∀ c, ("a b".toList : List Char).head? = some c → isPySpace c = false) ∧
        (∀ c, ("a b".toList : List Char).getLast? = some c → isPySpace c = false) ∧
        '\t' ∉ ("a b".toList : List Char) ∧ '\n' ∉ ("a b".toList : List Char) ∧
        List.Chain' (fun a b : Char => ¬(a = ' ' ∧ b = ' ')) ("a b".toList : List Char)) :=
  ⟨by decide, C9_output_lines_whitespace_normalized ("  a\tb  \nc".toList) _ (by decide)⟩

/-- C10: an input all of whose lines consist only of whitespace (in particular
the empty input) cleans to the empty string. -/
theorem C10_all_whitespace_input_empty_output (s : List Char)
    (h : ∀ l ∈ splitNl s, ∀ c ∈ l, isPySpace c = true) :
    clean_vtt_subtitle s = [] := by
  have hall : ∀ l ∈ splitNl s, skipLine l = true := by
    intro l hl
    have hh := pyStrip_isEmpty_of_all_space (h l hl)
    simp [skipLine, hh]
  rw [clean_vtt_subtitle, cleanLoop_all_skipped hall, intercalate_nil_words]

/-- C10 witness: a concrete whitespace-only input cleans to the empty string. -/
theorem C10_whitespace_witness :
    (∀ l ∈ splitNl (" \t\n \n".toList), ∀ c ∈ l, isPySpace c = true) ∧
      clean_vtt_subtitle (" \t\n \n".toList) = [] :=
  ⟨by decide, C10_all_whitespace_input_empty_output _ (by decide)⟩
